import Mathlib

/-!
Verification development for the Sarvam call-analytics batch client
(`sarvamcallanalytics.py`).

The development shallowly embeds the core of the program:

* `extractUrlComponents` models `SarvamClient._extract_url_components`,
  including a model of CPython's `urllib.parse.urlparse` restricted to the
  behaviour that function depends on (scheme/netloc/path/query/fragment
  splitting, parameter splitting, and removal of tab/newline/carriage-return
  bytes).  IPv6 bracket validation and the stripping of leading/trailing
  C0-control characters are outside the model.
* `processBatchJob`, `initializeJob`, `startJob`, `uploadFiles`,
  `monitorLoop` and `retrieveResults` model the orchestration functions of
  the same names (`monitorLoop` is the `while True:` status loop inside
  `process_batch_job`; `retrieveResults` is its result-download loop).
  The remote's behaviour (HTTP status codes, response bodies, job states,
  storage listings and file contents) is supplied by an `Env` record, and
  every observable action of the program (HTTP call, UI message, storage
  operation, sleep) is recorded as an `Event` in the order it happens.
* `mkJobParams` models the `job_params` dictionary literal built before
  `start_job` is called.

Strings are processed at the `List Char` level so that all definitions are
structurally recursive and evaluate by `decide`/`rfl`.
-/

/-- JSON-like values: models Python dicts/lists/strings as handled by
`json.loads` and the `job_params` literal. -/
inductive JValue where
  | str (s : String)
  | nat (n : Nat)
  | bool (b : Bool)
  | arr (xs : List JValue)
  | obj (fields : List (String × JValue))

/-- Association-list lookup for modelled JSON objects (first binding wins,
like Python dict literals with distinct keys). -/
def lookupStr : List (String × JValue) → String → Option JValue
  | [], _ => none
  | (k, v) :: rest, key => if k = key then some v else lookupStr rest key

/-- Field access on a modelled JSON object. -/
def JValue.getField : JValue → String → Option JValue
  | .obj fs, key => lookupStr fs key
  | _, _ => none

/-- The `job_params` dictionary built in `process_batch_job` (lines 148-156):
model string constant, diarization flag, speaker count, and the
caller-supplied question list passed through as-is. -/
def mkJobParams (job_id : String) (with_diarization : Bool)
    (num_speakers : Nat) (questions : List JValue) : JValue :=
  .obj [("job_id", .str job_id),
        ("job_parameters", .obj
          [("model", .str "saaras:v2"),
           ("with_diarization", .bool with_diarization),
           ("num_speakers", .nat num_speakers),
           ("questions", .arr questions)])]

/-- Parsed body of the `job/init` response. -/
structure InitBody where
  job_id : String
  input_storage_path : String
  output_storage_path : String
  deriving DecidableEq, Repr

/-- Remote-world behaviour supplied to one run of `process_batch_job`:
HTTP status codes and bodies for init/start, the sequence of
`check_job_status` results (`none` models a non-200 status response, for
which `check_job_status` returns `None`), the listing of the output
location, the content of each downloadable file, and the behaviour of
`json.loads` on each content (`Except.error` models a raised
`JSONDecodeError`). -/
structure Env where
  initCode : Nat
  initText : String
  initBody : InitBody
  uploadOp : String → Except String Unit
  startCode : Nat
  startText : String
  statuses : List (Option String)
  outputFiles : List String
  content : String → String
  parse : String → Except String JValue

/-- Observable actions of `process_batch_job`, in program order. -/
inductive Event where
  | initCall
  | initFailMsg (msg : String)
  | bindClient (url : String)
  | uploadAttempt (name : String)
  | uploadOkMsg (name : String)
  | uploadFailMsg (name : String) (err : String)
  | startCall
  | startFailMsg (msg : String)
  | statusCall
  | statusFailMsg
  | statusWrite (state : String)
  | completedMsg
  | failedMsg
  | wait
  | rebind (url : String)
  | listCall
  | downloadCall (name : String)
  deriving DecidableEq, Repr

/-- How one run of `process_batch_job` ends.  `results` is the only case in
which the function returns a non-`None` value; every other case returns
`None` to the caller.  `statusesEnded` is a model artifact: the supplied
finite status sequence was exhausted while the real loop would keep
polling. -/
inductive Outcome where
  | results (rs : List JValue)
  | initFailed
  | startFailed
  | statusAborted
  | jobFailed
  | caught (msg : String)
  | statusesEnded

/-- `initialize_job` (lines 103-110): a 202 response yields the parsed body;
anything else reports the raw response text and yields `None`. -/
def initializeJob (env : Env) : List Event × Option InitBody :=
  if env.initCode = 202 then
    ([Event.initCall], some env.initBody)
  else
    ([Event.initCall,
      Event.initFailMsg ("Failed to initialize job: " ++ env.initText)], none)

/-- `start_job` (lines 112-122): a 200 response succeeds; anything else
reports the raw response text and yields `None`. -/
def startJob (env : Env) : List Event × Option Unit :=
  if env.startCode = 200 then
    ([Event.startCall], some ())
  else
    ([Event.startCall,
      Event.startFailMsg ("Failed to start job: " ++ env.startText)], none)

/-- `SarvamClient._upload_file` (lines 58-76): the underlying storage write
either succeeds or raises; both cases are caught and reported, and a
boolean is returned. -/
def uploadFile (env : Env) (name : String) : List Event × Bool :=
  match env.uploadOp name with
  | .ok _ => ([Event.uploadAttempt name, Event.uploadOkMsg name], true)
  | .error e => ([Event.uploadAttempt name, Event.uploadFailMsg name e], false)

/-- `SarvamClient.upload_files` (lines 48-56): uploads each file in order;
the per-file boolean results are discarded, as in the source. -/
def uploadFiles (env : Env) : List String → List Event
  | [] => []
  | f :: fs => (uploadFile env f).1 ++ uploadFiles env fs

/-- Python `str.endswith(".json")` on a file name. -/
def jsonFile (f : String) : Bool := ".json".toList.isSuffixOf f.toList

/-- The result-download loop of `process_batch_job` (lines 179-183): for
each listed file ending in `.json`, download it and `json.loads` it; a
parse failure raises, abandoning the loop. -/
def retrieveResults (env : Env) : List String → List Event × Except String (List JValue)
  | [] => ([], .ok [])
  | f :: fs =>
    if jsonFile f then
      match env.parse (env.content f) with
      | .error m => ([Event.downloadCall f], .error m)
      | .ok v =>
        (Event.downloadCall f :: (retrieveResults env fs).1,
         (retrieveResults env fs).2.map (fun rs => v :: rs))
    else retrieveResults env fs

/-- The `while True:` status loop of `process_batch_job` (lines 163-189),
consuming one status response per iteration.  A `none` status response
reports the fetch failure and breaks; `Completed` reports success, rebinds
the client to the output location, lists it and retrieves the results
(an exception from `json.loads` propagates to the outer handler, which
reports it and returns `None`); `Failed` reports failure and breaks; any
other state sleeps for the fixed interval and polls again. -/
def monitorLoop (env : Env) : List (Option String) → List Event × Outcome
  | [] => ([], Outcome.statusesEnded)
  | none :: _ =>
    ([Event.statusCall, Event.statusFailMsg], Outcome.statusAborted)
  | some st :: rest =>
    if st = "Completed" then
      ([Event.statusCall, Event.statusWrite st, Event.completedMsg,
        Event.rebind env.initBody.output_storage_path, Event.listCall]
         ++ (retrieveResults env env.outputFiles).1,
       match (retrieveResults env env.outputFiles).2 with
       | .ok rs => Outcome.results rs
       | .error m => Outcome.caught ("Error processing batch job: " ++ m))
    else if st = "Failed" then
      ([Event.statusCall, Event.statusWrite st, Event.failedMsg], Outcome.jobFailed)
    else
      ([Event.statusCall, Event.statusWrite st, Event.wait]
         ++ (monitorLoop env rest).1,
       (monitorLoop env rest).2)

/-- Specification-side observer: the first terminal answer of a status
sequence, mirroring which branch of the polling loop is reached first. -/
inductive Verdict where
  | completed
  | failed
  | aborted
  | pending
  deriving DecidableEq, Repr

/-- First terminal answer of a status sequence. -/
def pollVerdict : List (Option String) → Verdict
  | [] => Verdict.pending
  | none :: _ => Verdict.aborted
  | some st :: rest =>
    if st = "Completed" then Verdict.completed
    else if st = "Failed" then Verdict.failed
    else pollVerdict rest

/-- `process_batch_job` (lines 132-193): init, bind the storage client to
the input location, upload all files, build the job parameters, start the
job, then monitor it. -/
def processBatchJob (env : Env) (files : List String) (questions : List JValue)
    (num_speakers : Nat) (with_diarization : Bool) : List Event × Outcome :=
  match (initializeJob env).2 with
  | none => ((initializeJob env).1, Outcome.initFailed)
  | some body =>
    -- `job_params` is built unconditionally before `start_job` is called;
    -- the modelled remote's answer to the start request is in `env`.
    let _job_params := mkJobParams body.job_id with_diarization num_speakers questions
    match (startJob env).2 with
    | none =>
      ((initializeJob env).1 ++ [Event.bindClient body.input_storage_path]
         ++ uploadFiles env files ++ (startJob env).1,
       Outcome.startFailed)
    | some _ =>
      ((initializeJob env).1 ++ [Event.bindClient body.input_storage_path]
         ++ uploadFiles env files ++ (startJob env).1
         ++ (monitorLoop env env.statuses).1,
       (monitorLoop env env.statuses).2)

/-! ## Model of `urllib.parse.urlparse` and `_extract_url_components`

`SarvamClient._extract_url_components` (lines 37-46) computes

```
parsed_url = urlparse(url)
account_url = f"SCHEME://NETLOC".replace(".blob.", ".dfs.")
path_components = parsed_url.path.strip("/").split("/")
file_system_name = path_components[0]
directory_name = "/".join(path_components[1:])
sas_token = parsed_url.query
```

The CPython `urlsplit`/`urlparse` pipeline is modelled over `List Char`:
removal of tab/newline/carriage-return bytes, scheme splitting at the
first `:` (with the scheme-character check and lowercasing), authority
splitting after `//` at the first of `/?#`, fragment splitting at the
first `#`, query splitting at the first `?`, and parameter splitting at
the first `;` of the last path segment for schemes that use parameters.
-/

/-- Bytes CPython's `urlsplit` removes from the URL before parsing. -/
def isRemovedByte (c : Char) : Bool := c == '\t' || c == '\n' || c == '\r'

/-- `urlsplit`'s removal of tab/newline/carriage-return bytes. -/
def removeBytes (s : List Char) : List Char := s.filter (fun c => !isRemovedByte c)

/-- CPython `scheme_chars`: ASCII letters, digits, `+`, `-`, `.`. -/
def schemeChar (c : Char) : Bool :=
  c.isAlpha || c.isDigit || c == '+' || c == '-' || c == '.'

/-- Characters that terminate the authority (netloc) component. -/
def netlocDelim (c : Char) : Bool := c == '/' || c == '?' || c == '#'

/-- Characters legal inside a path segment of a well-formed storage URL,
as used in the well-formedness hypotheses: not a path separator, not a
query/fragment delimiter, not a parameter separator, and not a removed
byte. -/
def pathSegChar (c : Char) : Bool :=
  !(c == '/' || c == '?' || c == '#' || c == ';' || isRemovedByte c)

/-- Index of the first character satisfying `p` (Python `str.find` with a
character class). -/
def firstIdx (p : Char → Bool) : List Char → Option Nat
  | [] => none
  | x :: xs => if p x then some 0 else (firstIdx p xs).map (· + 1)

/-- Longest strict prefix before the first character satisfying `p`. -/
def takeUntil (p : Char → Bool) : List Char → List Char
  | [] => []
  | x :: xs => if p x then [] else x :: takeUntil p xs

/-- Rest of the list from the first character satisfying `p` (inclusive). -/
def dropUntil (p : Char → Bool) : List Char → List Char
  | [] => []
  | x :: xs => if p x then x :: xs else dropUntil p xs

/-- Python membership test `c in s`. -/
def pyContains (c : Char) (s : List Char) : Bool := s.any (fun x => x == c)

/-- The scheme-splitting step of `urlsplit`: if there is a `:` at a
positive index and everything before it is a valid scheme starting with an
ASCII letter, the scheme is split off and lowercased. -/
def splitScheme (url : List Char) : List Char × List Char :=
  match firstIdx (fun c => c == ':') url with
  | some i =>
    if 0 < i ∧ (url.headD ' ').isAlpha ∧ (url.take i).all schemeChar then
      ((url.take i).map Char.toLower, url.drop (i + 1))
    else ([], url)
  | none => ([], url)

/-- Result of the modelled `urlsplit`. -/
structure UrlSplitRes where
  scheme : List Char
  netloc : List Char
  path : List Char
  query : List Char
  fragment : List Char
  deriving DecidableEq, Repr

/-- Model of CPython `urllib.parse.urlsplit` (without IPv6 bracket
validation, which only raises on bracket-mismatched authorities). -/
def urlsplitL (url0 : List Char) : UrlSplitRes :=
  let url := removeBytes url0
  let sp := splitScheme url
  let r1 := sp.2
  let netloc := if r1.take 2 = ['/', '/'] then takeUntil netlocDelim (r1.drop 2) else []
  let r2 := if r1.take 2 = ['/', '/'] then dropUntil netlocDelim (r1.drop 2) else r1
  let r3 := takeUntil (fun c => c == '#') r2
  let fragment := (dropUntil (fun c => c == '#') r2).drop 1
  let path := takeUntil (fun c => c == '?') r3
  let query := (dropUntil (fun c => c == '?') r3).drop 1
  ⟨sp.1, netloc, path, query, fragment⟩

/-- CPython `uses_params`: schemes for which `urlparse` splits parameters
off the last path segment. -/
def usesParamsSchemes : List (List Char) :=
  ["", "ftp", "hdl", "prospero", "http", "imap", "https", "shttp", "rtsp",
   "rtspu", "sip", "sips", "mms", "sftp", "tel"].map String.toList

/-- CPython `_splitparams`, called only when `;` occurs in the path: split
at the first `;` of the last path segment (or of the whole path when it
has no `/`); when the last segment has no `;`, the path is unchanged. -/
def splitParams (p : List Char) : List Char × List Char :=
  if pyContains '/' p then
    let k := p.length - 1 - ((firstIdx (fun c => c == '/') p.reverse).getD 0)
    match firstIdx (fun c => c == ';') (p.drop k) with
    | some j => (p.take (k + j), p.drop (k + j + 1))
    | none => (p, [])
  else
    match firstIdx (fun c => c == ';') p with
    | some j => (p.take j, p.drop (j + 1))
    | none => (p, [])

/-- Result of the modelled `urlparse`. -/
structure ParseResultL where
  scheme : List Char
  netloc : List Char
  path : List Char
  params : List Char
  query : List Char
  fragment : List Char
  deriving DecidableEq, Repr

/-- Model of CPython `urllib.parse.urlparse`: `urlsplit` followed by
parameter splitting for parameter-using schemes. -/
def urlparseL (url : List Char) : ParseResultL :=
  let s := urlsplitL url
  if usesParamsSchemes.contains s.scheme && pyContains ';' s.path then
    let pp := splitParams s.path
    ⟨s.scheme, s.netloc, pp.1, pp.2, s.query, s.fragment⟩
  else
    ⟨s.scheme, s.netloc, s.path, [], s.query, s.fragment⟩

/-- Python `str.split` with a single-character separator: `"".split(c)`
is `[""]`, and empty pieces between adjacent separators are kept. -/
def pySplit (c : Char) : List Char → List (List Char)
  | [] => [[]]
  | x :: xs =>
    if x == c then [] :: pySplit c xs
    else
      match pySplit c xs with
      | [] => [[x]]
      | h :: t => (x :: h) :: t

/-- Removal of trailing copies of `c` (the right half of `str.strip`). -/
def dropTrailing (c : Char) (s : List Char) : List Char :=
  (s.reverse.dropWhile (fun x => x == c)).reverse

/-- Python `str.strip(c)` for a single-character class. -/
def pyStrip (c : Char) (s : List Char) : List Char :=
  dropTrailing c (s.dropWhile (fun x => x == c))

/-- Python `sep.join(xs)`. -/
def pyJoin (sep : List Char) : List (List Char) → List Char
  | [] => []
  | [p] => p
  | p :: ps => p ++ sep ++ pyJoin sep ps

/-- Boolean prefix test used by the substring-replacement model. -/
def isPre : List Char → List Char → Bool
  | [], _ => true
  | _ :: _, [] => false
  | a :: as, b :: bs => a == b && isPre as bs

/-- Worker for `replaceAll`: `k` counts characters still to skip because
they were consumed by an already-replaced occurrence of the pattern. -/
def raGo (pat rep : List Char) : List Char → Nat → List Char
  | [], _ => []
  | _ :: xs, Nat.succ k => raGo pat rep xs k
  | x :: xs, 0 =>
    if pat ≠ [] ∧ isPre pat (x :: xs) = true then
      rep ++ raGo pat rep xs (pat.length - 1)
    else
      x :: raGo pat rep xs 0

/-- Python `str.replace(pat, rep)`: leftmost, non-overlapping replacement
of every occurrence. -/
def replaceAll (pat rep s : List Char) : List Char := raGo pat rep s 0

/-- Boolean substring test (Python `pat in s` for nonempty `pat`). -/
def containsSub (pat : List Char) : List Char → Bool
  | [] => pat.isEmpty
  | s@(_ :: xs) => isPre pat s || containsSub pat xs

/-- The `.replace(".blob.", ".dfs.")` tier normalization applied to
`f"SCHEME://NETLOC"` on line 39-41. -/
def tierNormalize (s : List Char) : List Char :=
  replaceAll ".blob.".toList ".dfs.".toList s

/-- The four components stored on a `SarvamClient` instance. -/
structure Components where
  account_url : List Char
  file_system_name : List Char
  directory_name : List Char
  sas_token : List Char
  deriving DecidableEq, Repr

/-- `SarvamClient._extract_url_components` (lines 37-46). -/
def extractUrlComponents (url : List Char) : Components :=
  let pu := urlparseL url
  let account_url := tierNormalize (pu.scheme ++ "://".toList ++ pu.netloc)
  let path_components := pySplit '/' (pyStrip '/' pu.path)
  ⟨account_url,
   path_components.headD [],
   pyJoin "/".toList (path_components.drop 1),
   pu.query⟩

/-- `SarvamClient.__init__` (lines 26-30): the stored state is exactly the
extracted components. -/
def sarvamClientInit (url : List Char) : Components := extractUrlComponents url

/-- `SarvamClient.update_url` (lines 32-35): rebinding replaces the stored
state with the components extracted from the new URL. -/
def Components.update_url (_s : Components) (url : List Char) : Components :=
  extractUrlComponents url

/-! ## Concrete environments used by witnesses and counterexamples -/

/-- Environment for the retrieval witness: a completed job whose output
listing mixes `.json` and non-`.json` files, all parseable. -/
def envC2 : Env :=
  ⟨202, "", ⟨"J1", "https://a/in?s", "https://a/out?s"⟩, fun _ => Except.ok (),
   200, "", [some "Completed"], ["r1.json", "notes.txt", "r2.json"],
   fun f => f, fun s => Except.ok (JValue.str s)⟩

/-- Parse result of each file in `envC2` (content is the file name). -/
def gC2 : String → JValue := fun f => JValue.str f

/-- Environment whose init response hands back an input storage path with
no container segment. -/
def envC5 : Env :=
  ⟨202, "", ⟨"J1", "https://host?sas", "https://a/out?s"⟩, fun _ => Except.ok (),
   200, "", [], [], fun _ => "", fun _ => Except.error "Expecting value"⟩

/-- Environment in which uploading `a.wav` fails and every other upload
succeeds. -/
def envC6 : Env :=
  ⟨202, "", ⟨"J1", "https://a/in?s", "https://a/out?s"⟩,
   fun f => if f = "a.wav" then Except.error "ConnectionError" else Except.ok (),
   200, "", [], [], fun _ => "", fun _ => Except.ok (JValue.nat 0)⟩

/-- Environment for a completed job whose output listing has one malformed
and one well-formed `.json` file. -/
def envC7 : Env :=
  ⟨202, "", ⟨"J1", "https://a/in?s", "https://a/out?s"⟩, fun _ => Except.ok (),
   200, "", [some "Completed"], ["bad.json", "good.json"],
   fun f => if f = "bad.json" then "oops" else "fine",
   fun s => if s = "oops" then Except.error "Expecting value" else Except.ok (JValue.str s)⟩

/-- Environment whose init request is rejected with a 404 and a raw error
body. -/
def envC8 : Env :=
  ⟨404, "Invalid API key", ⟨"", "", ""⟩, fun _ => Except.ok (),
   200, "", [], [], fun _ => "", fun _ => Except.ok (JValue.nat 0)⟩

/-! ## Generic list lemmas -/

theorem head?_append_left {α : Type} (l₁ l₂ : List α) (h : l₁ ≠ []) :
    (l₁ ++ l₂).head? = l₁.head? := by
  cases l₁ with
  | nil => exact absurd rfl h
  | cons a l => simp

theorem getLast?_append_right {α : Type} (l₁ l₂ : List α) (h : l₂ ≠ []) :
    (l₁ ++ l₂).getLast? = l₂.getLast? := by
  rw [← List.head?_reverse, ← List.head?_reverse, List.reverse_append]
  exact head?_append_left _ _ (by simpa using h)

theorem getLast?_cons_ne_nil {α : Type} (a : α) (l : List α) (h : l ≠ []) :
    (a :: l).getLast? = l.getLast? := by
  have := getLast?_append_right [a] l h
  simpa using this

theorem head?_mem {α : Type} {s : List α} {h : α} (hs : s.head? = some h) : h ∈ s := by
  cases s with
  | nil => simp at hs
  | cons a l => simp at hs; simp [hs]

theorem getLast?_mem {α : Type} {s : List α} {g : α} (hs : s.getLast? = some g) : g ∈ s := by
  cases hn : s with
  | nil => subst hn; simp at hs
  | cons a l =>
    subst hn
    have h1 : (a :: l).getLast? = some ((a :: l).getLast (by simp)) :=
      List.getLast?_eq_getLast _ _
    rw [h1] at hs
    have h2 := List.getLast_mem (l := a :: l) (by simp)
    rw [Option.some_inj.mp hs] at h2
    exact h2

theorem dropWhile_head?_false {α : Type} (p : α → Bool) (s : List α) {h : α}
    (hh : (s.dropWhile p).head? = some h) : p h = false := by
  induction s with
  | nil => simp at hh
  | cons a l ih =>
    rw [List.dropWhile_cons] at hh
    by_cases hp : p a = true
    · exact ih (by simpa [hp] using hh)
    · have hp' : p a = false := by simpa using hp
      simp [hp'] at hh
      subst hh
      exact hp'

theorem getLast?_drop_ne_nil {α : Type} (l : List α) (n : Nat) (h : l.drop n ≠ []) :
    (l.drop n).getLast? = l.getLast? := by
  conv_rhs => rw [← List.take_append_drop n l]
  rw [getLast?_append_right _ _ h]

/-! ## Lemmas about the Python string helpers -/

theorem firstIdx_append {p : Char → Bool} (u : List Char) {c : Char} (t : List Char)
    (hu : ∀ x ∈ u, p x = false) (hc : p c = true) :
    firstIdx p (u ++ c :: t) = some u.length := by
  induction u with
  | nil => simp [firstIdx, hc]
  | cons a u ih =>
    have ha : p a = false := hu a (by simp)
    have ih' := ih (fun x hx => hu x (by simp [hx]))
    simp [firstIdx, ha, ih']

theorem takeUntil_append {p : Char → Bool} (u : List Char) {c : Char} (t : List Char)
    (hu : ∀ x ∈ u, p x = false) (hc : p c = true) :
    takeUntil p (u ++ c :: t) = u := by
  induction u with
  | nil => simp [takeUntil, hc]
  | cons a u ih =>
    have ha : p a = false := hu a (by simp)
    have ih' := ih (fun x hx => hu x (by simp [hx]))
    simp [takeUntil, ha, ih']

theorem dropUntil_append {p : Char → Bool} (u : List Char) {c : Char} (t : List Char)
    (hu : ∀ x ∈ u, p x = false) (hc : p c = true) :
    dropUntil p (u ++ c :: t) = c :: t := by
  induction u with
  | nil => simp [dropUntil, hc]
  | cons a u ih =>
    have ha : p a = false := hu a (by simp)
    have ih' := ih (fun x hx => hu x (by simp [hx]))
    simp [dropUntil, ha, ih']

theorem takeUntil_eq_self {p : Char → Bool} (s : List Char)
    (hs : ∀ x ∈ s, p x = false) : takeUntil p s = s := by
  induction s with
  | nil => rfl
  | cons a s ih =>
    have ha : p a = false := hs a (by simp)
    simp [takeUntil, ha, ih (fun x hx => hs x (by simp [hx]))]

theorem dropUntil_eq_nil {p : Char → Bool} (s : List Char)
    (hs : ∀ x ∈ s, p x = false) : dropUntil p s = [] := by
  induction s with
  | nil => rfl
  | cons a s ih =>
    have ha : p a = false := hs a (by simp)
    simp [dropUntil, ha, ih (fun x hx => hs x (by simp [hx]))]

theorem pyContains_eq_false {c : Char} (s : List Char)
    (h : ∀ x ∈ s, (x == c) = false) : pyContains c s = false := by
  induction s with
  | nil => rfl
  | cons a s ih =>
    have ha := h a (by simp)
    simp only [pyContains, List.any_cons, ha, Bool.false_or]
    exact ih (fun x hx => h x (by simp [hx]))

theorem pySplit_ne_nil (c : Char) (s : List Char) : pySplit c s ≠ [] := by
  induction s with
  | nil => simp [pySplit]
  | cons a s ih =>
    by_cases hac : (a == c) = true
    · simp [pySplit, hac]
    · have hf : (a == c) = false := by simpa using hac
      rcases hs : pySplit c s with _ | ⟨h, t⟩
      · exact absurd hs ih
      · simp [pySplit, hf, hs]

theorem pySplit_eq_single {c : Char} (s : List Char)
    (h : ∀ x ∈ s, (x == c) = false) : pySplit c s = [s] := by
  induction s with
  | nil => rfl
  | cons a s ih =>
    have ha : (a == c) = false := h a (by simp)
    have ih' := ih (fun x hx => h x (by simp [hx]))
    simp [pySplit, ha, ih']

theorem pySplit_append {c : Char} (u t : List Char)
    (h : ∀ x ∈ u, (x == c) = false) :
    pySplit c (u ++ c :: t) = u :: pySplit c t := by
  induction u with
  | nil => simp [pySplit]
  | cons a u ih =>
    have ha : (a == c) = false := h a (by simp)
    have ih' := ih (fun x hx => h x (by simp [hx]))
    simp [pySplit, ha, ih']

theorem pySplit_pieces {c : Char} (s : List Char) :
    ∀ p ∈ pySplit c s, ∀ x ∈ p, (x == c) = false := by
  induction s with
  | nil =>
    intro p hp x hx
    simp [pySplit] at hp
    subst hp
    simp at hx
  | cons a s ih =>
    intro p hp x hx
    by_cases hac : (a == c) = true
    · simp [pySplit, hac] at hp
      rcases hp with hp | hp
      · subst hp; simp at hx
      · exact ih p hp x hx
    · have hf : (a == c) = false := by simpa using hac
      rcases hs : pySplit c s with _ | ⟨h0, t0⟩
      · exact absurd hs (pySplit_ne_nil c s)
      · simp [pySplit, hf, hs] at hp
        rcases hp with hp | hp
        · subst hp
          rcases List.mem_cons.mp hx with rfl | hx'
          · exact hf
          · exact ih h0 (by simp [hs]) x hx'
        · exact ih p (by simp [hs, hp]) x hx

theorem pySplit_getLast_ne_nil {c : Char} (s : List Char)
    (hs : ∀ g, s.getLast? = some g → (g == c) = false)
    {p : List Char} (hp : (pySplit c s).getLast? = some p) : p ≠ [] ∨ s = [] := by
  induction s with
  | nil => exact Or.inr rfl
  | cons a s ih =>
    refine Or.inl ?_
    by_cases hse : s = []
    · -- single element: the last of [a] is a, so (a == c) = false
      subst hse
      have ha : (a == c) = false := hs a (by simp)
      rw [pySplit_eq_single [a] (by intro x hx; simp at hx; subst hx; exact ha)] at hp
      simp at hp
      subst hp
      simp
    · have hs' : ∀ g, s.getLast? = some g → (g == c) = false := by
        intro g hg
        exact hs g (by rw [getLast?_cons_ne_nil a s hse]; exact hg)
      by_cases hac : (a == c) = true
      · -- pieces = [] :: pySplit c s and pySplit c s ≠ []
        rcases hq : pySplit c s with _ | ⟨h0, t0⟩
        · exact absurd hq (pySplit_ne_nil c s)
        · rw [show pySplit c (a :: s) = [] :: pySplit c s from by simp [pySplit, hac]] at hp
          rw [hq] at hp
          rw [getLast?_cons_ne_nil _ _ (by simp)] at hp
          rcases ih hs' (by rw [hq]; exact hp) with h | h
          · exact h
          · exact absurd h hse
      · have hf : (a == c) = false := by simpa using hac
        rcases hq : pySplit c s with _ | ⟨h0, t0⟩
        · exact absurd hq (pySplit_ne_nil c s)
        · rw [show pySplit c (a :: s) = (a :: h0) :: t0 from by simp [pySplit, hf, hq]] at hp
          cases t0 with
          | nil =>
            simp at hp
            subst hp
            simp
          | cons t1 ts =>
            rw [getLast?_cons_ne_nil _ _ (by simp)] at hp
            rcases ih hs' (by rw [hq]; exact getLast?_cons_ne_nil h0 (t1 :: ts) (by simp) ▸ hp) with h | h
            · exact h
            · exact absurd h hse

theorem dropTrailing_eq_self {c : Char} (s : List Char)
    (h : ∀ g, s.getLast? = some g → (g == c) = false) : dropTrailing c s = s := by
  unfold dropTrailing
  cases hs : s.reverse with
  | nil =>
    have : s = [] := by simpa using congrArg List.reverse hs
    simp [this]
  | cons a t =>
    have hga : s.getLast? = some a := by
      rw [← List.head?_reverse, hs]; rfl
    have ha := h a hga
    rw [List.dropWhile_cons]
    simp only [ha, if_false, Bool.false_eq_true]
    rw [← hs, List.reverse_reverse]

theorem dropTrailing_getLast {c : Char} (s : List Char) {g : Char}
    (hg : (dropTrailing c s).getLast? = some g) : (g == c) = false := by
  unfold dropTrailing at hg
  rw [← List.head?_reverse, List.reverse_reverse] at hg
  exact dropWhile_head?_false (fun x => x == c) s.reverse hg

theorem pyStrip_getLast {c : Char} (s : List Char) {g : Char}
    (hg : (pyStrip c s).getLast? = some g) : (g == c) = false :=
  dropTrailing_getLast _ hg

theorem pyJoin_ne_nil {sep : List Char} {ps : List (List Char)} {q : List Char}
    (hq : ps.getLast? = some q) (hqn : q ≠ []) : pyJoin sep ps ≠ [] := by
  induction ps with
  | nil => simp at hq
  | cons p ps ih =>
    cases ps with
    | nil =>
      simp at hq
      subst hq
      simpa [pyJoin] using hqn
    | cons r rs =>
      rw [getLast?_cons_ne_nil _ _ (by simp)] at hq
      have hrec := ih hq
      simp only [pyJoin]
      simp [hrec]

theorem pyJoin_getLast {sep : List Char} {ps : List (List Char)} {q : List Char}
    (hq : ps.getLast? = some q) (hqn : q ≠ []) :
    (pyJoin sep ps).getLast? = q.getLast? := by
  induction ps with
  | nil => simp at hq
  | cons p ps ih =>
    cases ps with
    | nil =>
      simp at hq
      subst hq
      rfl
    | cons r rs =>
      rw [getLast?_cons_ne_nil _ _ (by simp)] at hq
      have hrec := ih hq
      have hne : pyJoin sep (r :: rs) ≠ [] := pyJoin_ne_nil hq hqn
      calc (pyJoin sep (p :: r :: rs)).getLast?
          = (p ++ sep ++ pyJoin sep (r :: rs)).getLast? := by rfl
        _ = q.getLast? := by
            rw [List.append_assoc, getLast?_append_right _ _ (by simp [hne]),
                getLast?_append_right _ _ hne, hrec]

theorem pyJoin_head {sep : List Char} {p : List Char} (ps : List (List Char)) (hp : p ≠ []) :
    (pyJoin sep (p :: ps)).head? = p.head? := by
  cases ps with
  | nil => rfl
  | cons r rs =>
    calc (pyJoin sep (p :: r :: rs)).head?
        = (p ++ (sep ++ pyJoin sep (r :: rs))).head? := by rw [← List.append_assoc]; rfl
      _ = p.head? := head?_append_left _ _ hp

/-! ## Lemmas about substring replacement -/

theorem raGo_skip (pat rep : List Char) (s : List Char) (k : Nat) :
    raGo pat rep s k = raGo pat rep (s.drop k) 0 := by
  induction s generalizing k with
  | nil => cases k <;> rfl
  | cons x xs ih =>
    cases k with
    | zero => rfl
    | succ k =>
      calc raGo pat rep (x :: xs) (k + 1) = raGo pat rep xs k := by rfl
        _ = raGo pat rep (xs.drop k) 0 := ih k
        _ = raGo pat rep ((x :: xs).drop (k + 1)) 0 := by rfl

theorem replaceAll_cons (pat rep : List Char) (x : Char) (xs : List Char) :
    replaceAll pat rep (x :: xs) =
      if pat ≠ [] ∧ isPre pat (x :: xs) = true then
        rep ++ replaceAll pat rep ((x :: xs).drop pat.length)
      else x :: replaceAll pat rep xs := by
  unfold replaceAll
  by_cases h : pat ≠ [] ∧ isPre pat (x :: xs) = true
  · rw [if_pos h]
    rcases List.exists_cons_of_ne_nil h.1 with ⟨p0, pt, hpat⟩
    calc raGo pat rep (x :: xs) 0 = rep ++ raGo pat rep xs (pat.length - 1) := by
          rw [show raGo pat rep (x :: xs) 0 = if pat ≠ [] ∧ isPre pat (x :: xs) = true then
                rep ++ raGo pat rep xs (pat.length - 1) else x :: raGo pat rep xs 0 from rfl,
              if_pos h]
      _ = rep ++ raGo pat rep (xs.drop (pat.length - 1)) 0 := by rw [raGo_skip]
      _ = rep ++ raGo pat rep ((x :: xs).drop pat.length) 0 := by
          subst hpat; simp
  · rw [if_neg h]
    calc raGo pat rep (x :: xs) 0 = x :: raGo pat rep xs 0 := by
          rw [show raGo pat rep (x :: xs) 0 = if pat ≠ [] ∧ isPre pat (x :: xs) = true then
                rep ++ raGo pat rep xs (pat.length - 1) else x :: raGo pat rep xs 0 from rfl,
              if_neg h]
      _ = x :: raGo pat rep xs 0 := rfl

theorem replaceAll_of_not_contains (pat rep : List Char) (s : List Char)
    (h : containsSub pat s = false) : replaceAll pat rep s = s := by
  induction s with
  | nil => rfl
  | cons x xs ih =>
    have h1 : isPre pat (x :: xs) = false ∧ containsSub pat xs = false := by
      have : containsSub pat (x :: xs) = (isPre pat (x :: xs) || containsSub pat xs) := rfl
      rw [this] at h
      exact ⟨(Bool.or_eq_false_iff.mp h).1, (Bool.or_eq_false_iff.mp h).2⟩
    rw [replaceAll_cons,
        if_neg (by intro hcon; exact absurd hcon.2 (by simp [h1.1])),
        ih h1.2]

theorem replaceAll_append (pat rep : List Char) (a b : List Char)
    (h : ∀ i < a.length, isPre pat (a.drop i ++ b) = false) :
    replaceAll pat rep (a ++ b) = a ++ replaceAll pat rep b := by
  induction a with
  | nil => simp
  | cons x a ih =>
    have h0 : isPre pat (x :: (a ++ b)) = false := by
      have h' := h 0 (by simp)
      simpa using h'
    rw [List.cons_append, replaceAll_cons,
        if_neg (by intro hcon; rw [hcon.2] at h0; exact Bool.noConfusion h0),
        ih (fun i hi => by
          have h' := h (i + 1) (by simpa using Nat.succ_lt_succ hi)
          simpa using h')]
    simp

theorem isPre_of_isPre_append {pat u : List Char} (r : List Char)
    (h : isPre pat (u ++ r) = true) (hl : pat.length ≤ u.length) : isPre pat u = true := by
  induction pat generalizing u with
  | nil => rfl
  | cons p pt ih =>
    cases u with
    | nil => simp at hl
    | cons a u =>
      rw [List.cons_append] at h
      have h' : (p == a) = true ∧ isPre pt (u ++ r) = true := by
        have : isPre (p :: pt) (a :: (u ++ r)) = ((p == a) && isPre pt (u ++ r)) := rfl
        rw [this] at h
        exact Bool.and_eq_true_iff.mp h
      have : isPre (p :: pt) (a :: u) = ((p == a) && isPre pt u) := rfl
      rw [this, h'.1, ih h'.2 (by simpa using hl)]
      rfl

theorem mem_of_isPre_append {pat u : List Char} {x : Char} (r : List Char)
    (h : isPre pat (u ++ x :: r) = true) (hl : u.length < pat.length) : x ∈ pat := by
  induction pat generalizing u with
  | nil => simp at hl
  | cons p pt ih =>
    cases u with
    | nil =>
      have h' : (p == x) = true ∧ isPre pt r = true := by
        have : isPre (p :: pt) ([] ++ x :: r) = ((p == x) && isPre pt r) := rfl
        rw [this] at h
        exact Bool.and_eq_true_iff.mp h
      have : p = x := eq_of_beq h'.1
      simp [this]
    | cons a u =>
      rw [List.cons_append] at h
      have h' : (p == a) = true ∧ isPre pt (u ++ x :: r) = true := by
        have : isPre (p :: pt) (a :: (u ++ x :: r)) = ((p == a) && isPre pt (u ++ x :: r)) := rfl
        rw [this] at h
        exact Bool.and_eq_true_iff.mp h
      exact List.mem_cons_of_mem _ (ih h'.2 (by simpa using Nat.lt_of_succ_lt_succ hl))

theorem containsSub_of_isPre_drop {pat s : List Char} (i : Nat)
    (h : isPre pat (s.drop i) = true) (hp : pat ≠ []) : containsSub pat s = true := by
  induction s generalizing i with
  | nil =>
    rcases List.exists_cons_of_ne_nil hp with ⟨p0, pt, hpat⟩
    subst hpat
    rw [List.drop_nil] at h
    exact Bool.noConfusion h
  | cons a s ih =>
    cases i with
    | zero =>
      have : containsSub pat (a :: s) = (isPre pat (a :: s) || containsSub pat s) := rfl
      rw [this, List.drop_zero] at *
      simp [h]
    | succ i =>
      have hrec := ih i (by simpa using h)
      have : containsSub pat (a :: s) = (isPre pat (a :: s) || containsSub pat s) := rfl
      rw [this, hrec]
      simp

/-! ## Reduction lemmas for the orchestrator -/

theorem initializeJob_202 (env : Env) (h : env.initCode = 202) :
    initializeJob env = ([Event.initCall], some env.initBody) := by
  simp [initializeJob, h]

theorem initializeJob_not202 (env : Env) (h : env.initCode ≠ 202) :
    initializeJob env
      = ([Event.initCall,
          Event.initFailMsg ("Failed to initialize job: " ++ env.initText)], none) := by
  simp [initializeJob, h]

theorem startJob_200 (env : Env) (h : env.startCode = 200) :
    startJob env = ([Event.startCall], some ()) := by
  simp [startJob, h]

theorem startJob_not200 (env : Env) (h : env.startCode ≠ 200) :
    startJob env
      = ([Event.startCall,
          Event.startFailMsg ("Failed to start job: " ++ env.startText)], none) := by
  simp [startJob, h]

theorem processBatchJob_not202 (env : Env) (files : List String) (qs : List JValue)
    (ns : Nat) (wd : Bool) (h : env.initCode ≠ 202) :
    processBatchJob env files qs ns wd
      = ([Event.initCall,
          Event.initFailMsg ("Failed to initialize job: " ++ env.initText)],
         Outcome.initFailed) := by
  unfold processBatchJob
  rw [initializeJob_not202 env h]

theorem processBatchJob_202_200 (env : Env) (files : List String) (qs : List JValue)
    (ns : Nat) (wd : Bool) (h1 : env.initCode = 202) (h2 : env.startCode = 200) :
    processBatchJob env files qs ns wd
      = (Event.initCall :: Event.bindClient env.initBody.input_storage_path
           :: (uploadFiles env files ++ Event.startCall :: (monitorLoop env env.statuses).1),
         (monitorLoop env env.statuses).2) := by
  unfold processBatchJob
  rw [initializeJob_202 env h1, startJob_200 env h2]
  simp

theorem processBatchJob_202_not200 (env : Env) (files : List String) (qs : List JValue)
    (ns : Nat) (wd : Bool) (h1 : env.initCode = 202) (h2 : env.startCode ≠ 200) :
    processBatchJob env files qs ns wd
      = (Event.initCall :: Event.bindClient env.initBody.input_storage_path
           :: (uploadFiles env files
                ++ [Event.startCall,
                    Event.startFailMsg ("Failed to start job: " ++ env.startText)]),
         Outcome.startFailed) := by
  unfold processBatchJob
  rw [initializeJob_202 env h1, startJob_not200 env h2]
  simp

theorem monitorLoop_none (env : Env) (rest : List (Option String)) :
    monitorLoop env (none :: rest)
      = ([Event.statusCall, Event.statusFailMsg], Outcome.statusAborted) := by
  simp [monitorLoop]

theorem monitorLoop_completed_fst (env : Env) (rest : List (Option String)) :
    (monitorLoop env (some "Completed" :: rest)).1
      = [Event.statusCall, Event.statusWrite "Completed", Event.completedMsg,
         Event.rebind env.initBody.output_storage_path, Event.listCall]
        ++ (retrieveResults env env.outputFiles).1 := by
  simp [monitorLoop]

theorem monitorLoop_completed_ok (env : Env) (rest : List (Option String)) (rs : List JValue)
    (h : (retrieveResults env env.outputFiles).2 = Except.ok rs) :
    (monitorLoop env (some "Completed" :: rest)).2 = Outcome.results rs := by
  simp [monitorLoop, h]

theorem monitorLoop_completed_err (env : Env) (rest : List (Option String)) (m : String)
    (h : (retrieveResults env env.outputFiles).2 = Except.error m) :
    (monitorLoop env (some "Completed" :: rest)).2
      = Outcome.caught ("Error processing batch job: " ++ m) := by
  simp [monitorLoop, h]

theorem monitorLoop_failed (env : Env) (rest : List (Option String)) :
    monitorLoop env (some "Failed" :: rest)
      = ([Event.statusCall, Event.statusWrite "Failed", Event.failedMsg],
         Outcome.jobFailed) := by
  unfold monitorLoop
  rw [if_neg (by decide), if_pos rfl]

theorem monitorLoop_run_fst (env : Env) (s : String) (rest : List (Option String))
    (h1 : s ≠ "Completed") (h2 : s ≠ "Failed") :
    (monitorLoop env (some s :: rest)).1
      = Event.statusCall :: Event.statusWrite s :: Event.wait :: (monitorLoop env rest).1 := by
  simp [monitorLoop, h1, h2]

theorem monitorLoop_run_snd (env : Env) (s : String) (rest : List (Option String))
    (h1 : s ≠ "Completed") (h2 : s ≠ "Failed") :
    (monitorLoop env (some s :: rest)).2 = (monitorLoop env rest).2 := by
  simp [monitorLoop, h1, h2]

theorem pollVerdict_cons (s : String) (rest : List (Option String))
    (h1 : s ≠ "Completed") (h2 : s ≠ "Failed") :
    pollVerdict (some s :: rest) = pollVerdict rest := by
  simp [pollVerdict, h1, h2]

theorem pollVerdict_completed_cons (rest : List (Option String)) :
    pollVerdict (some "Completed" :: rest) = Verdict.completed := by
  simp [pollVerdict]

theorem pollVerdict_failed_cons (rest : List (Option String)) :
    pollVerdict (some "Failed" :: rest) = Verdict.failed := by
  unfold pollVerdict
  rw [if_neg (by decide), if_pos rfl]

/-! ## Event-shape lemmas -/

theorem uploadAttempt_mem (env : Env) {fs : List String} {f : String} (hf : f ∈ fs) :
    Event.uploadAttempt f ∈ uploadFiles env fs := by
  induction fs with
  | nil => simp at hf
  | cons g fs ih =>
    rcases List.mem_cons.mp hf with rfl | hf'
    · unfold uploadFiles uploadFile
      cases env.uploadOp f <;> simp
    · unfold uploadFiles
      exact List.mem_append_right _ (ih hf')

theorem uploadOk_mem (env : Env) {fs : List String} {f : String} (hf : f ∈ fs)
    (h : env.uploadOp f = Except.ok ()) :
    Event.uploadOkMsg f ∈ uploadFiles env fs := by
  induction fs with
  | nil => simp at hf
  | cons g fs ih =>
    rcases List.mem_cons.mp hf with rfl | hf'
    · unfold uploadFiles uploadFile
      rw [h]
      simp
    · unfold uploadFiles
      exact List.mem_append_right _ (ih hf')

theorem uploadFail_mem (env : Env) {fs : List String} {f e : String} (hf : f ∈ fs)
    (h : env.uploadOp f = Except.error e) :
    Event.uploadFailMsg f e ∈ uploadFiles env fs := by
  induction fs with
  | nil => simp at hf
  | cons g fs ih =>
    rcases List.mem_cons.mp hf with rfl | hf'
    · unfold uploadFiles uploadFile
      rw [h]
      simp
    · unfold uploadFiles
      exact List.mem_append_right _ (ih hf')

theorem uploadFiles_events (env : Env) (fs : List String) :
    ∀ e ∈ uploadFiles env fs,
      (∃ f, e = Event.uploadAttempt f) ∨ (∃ f, e = Event.uploadOkMsg f)
      ∨ (∃ f m, e = Event.uploadFailMsg f m) := by
  induction fs with
  | nil => intro e he; simp [uploadFiles] at he
  | cons g fs ih =>
    intro e he
    unfold uploadFiles at he
    rcases List.mem_append.mp he with h | h
    · unfold uploadFile at h
      cases hop : env.uploadOp g with
      | ok v =>
        rw [hop] at h
        simp at h
        rcases h with rfl | rfl
        · exact Or.inl ⟨g, rfl⟩
        · exact Or.inr (Or.inl ⟨g, rfl⟩)
      | error m =>
        rw [hop] at h
        simp at h
        rcases h with rfl | rfl
        · exact Or.inl ⟨g, rfl⟩
        · exact Or.inr (Or.inr ⟨g, m, rfl⟩)
    · exact ih e h

theorem retrieve_events (env : Env) (fs : List String) :
    ∀ e ∈ (retrieveResults env fs).1, ∃ f, e = Event.downloadCall f := by
  induction fs with
  | nil => intro e he; simp [retrieveResults] at he
  | cons g fs ih =>
    intro e he
    unfold retrieveResults at he
    by_cases hj : jsonFile g = true
    · rw [if_pos hj] at he
      cases hp : env.parse (env.content g) with
      | error m =>
        rw [hp] at he
        simp at he
        subst he
        exact ⟨g, rfl⟩
      | ok v =>
        rw [hp] at he
        simp at he
        rcases he with rfl | he'
        · exact ⟨g, rfl⟩
        · exact ih e he'
    · rw [if_neg hj] at he
      exact ih e he

theorem monitor_events (env : Env) (sts : List (Option String)) :
    ∀ e ∈ (monitorLoop env sts).1,
      e = Event.statusCall ∨ e = Event.statusFailMsg ∨ (∃ s, e = Event.statusWrite s)
      ∨ e = Event.completedMsg ∨ e = Event.failedMsg ∨ e = Event.wait
      ∨ (∃ u, e = Event.rebind u) ∨ e = Event.listCall
      ∨ (∃ f, e = Event.downloadCall f) := by
  induction sts with
  | nil => intro e he; simp [monitorLoop] at he
  | cons s rest ih =>
    intro e he
    cases s with
    | none =>
      rw [monitorLoop_none] at he
      rcases (by simpa using he : e = Event.statusCall ∨ e = Event.statusFailMsg) with rfl | rfl
      · simp
      · simp
    | some st =>
      by_cases h1 : st = "Completed"
      · subst h1
        rw [monitorLoop_completed_fst] at he
        rcases List.mem_append.mp he with h | h
        · simp at h
          rcases h with rfl | rfl | rfl | rfl | rfl <;> simp
        · rcases retrieve_events env env.outputFiles e h with ⟨f, rfl⟩
          simp
      · by_cases h2 : st = "Failed"
        · subst h2
          rw [monitorLoop_failed] at he
          simp at he
          rcases he with rfl | rfl | rfl <;> simp
        · rw [monitorLoop_run_fst env st rest h1 h2] at he
          rcases List.mem_cons.mp he with rfl | he'
          · simp
          · rcases List.mem_cons.mp he' with rfl | he''
            · simp
            · rcases List.mem_cons.mp he'' with rfl | he3
              · simp
              · exact ih e he3

theorem initCall_not_mem_upload (env : Env) (fs : List String) :
    Event.initCall ∉ uploadFiles env fs := by
  intro h
  rcases uploadFiles_events env fs _ h with ⟨f, hf⟩ | ⟨f, hf⟩ | ⟨f, m, hf⟩ <;> cases hf

theorem initCall_not_mem_start (env : Env) :
    Event.initCall ∉ (startJob env).1 := by
  intro h
  unfold startJob at h
  by_cases hc : env.startCode = 200 <;> simp [hc] at h

theorem initCall_not_mem_monitor (env : Env) (sts : List (Option String)) :
    Event.initCall ∉ (monitorLoop env sts).1 := by
  intro h
  rcases monitor_events env sts _ h with
    hf | hf | ⟨s, hf⟩ | hf | hf | hf | ⟨u, hf⟩ | hf | ⟨f, hf⟩ <;> cases hf

theorem wait_not_mem_retrieve (env : Env) (fs : List String) :
    Event.wait ∉ (retrieveResults env fs).1 := by
  intro h
  rcases retrieve_events env fs _ h with ⟨f, hf⟩
  cases hf

theorem retrieve_ok (env : Env) (g : String → JValue) (fs : List String)
    (h : ∀ f ∈ fs, jsonFile f = true → env.parse (env.content f) = Except.ok (g f)) :
    retrieveResults env fs =
      ((fs.filter (fun f => jsonFile f)).map Event.downloadCall,
       Except.ok ((fs.filter (fun f => jsonFile f)).map g)) := by
  induction fs with
  | nil => simp [retrieveResults]
  | cons f fs ih =>
    have ih' := ih (fun x hx hjx => h x (by simp [hx]) hjx)
    by_cases hj : jsonFile f = true
    · have hp := h f (by simp) hj
      simp [retrieveResults, hj, hp, ih', List.filter_cons, Except.map]
    · have hf : jsonFile f = false := by simpa using hj
      simp [retrieveResults, hf, ih', List.filter_cons]

theorem retrieve_err (env : Env) (fs : List String)
    (h : ∃ f ∈ fs, jsonFile f = true ∧ ∃ m, env.parse (env.content f) = Except.error m) :
    ∃ m, (retrieveResults env fs).2 = Except.error m := by
  induction fs with
  | nil => simp at h
  | cons f fs ih =>
    rcases h with ⟨f', hf', hj', m', hm'⟩
    by_cases hj : jsonFile f = true
    · cases hp : env.parse (env.content f) with
      | error m =>
        refine ⟨m, ?_⟩
        unfold retrieveResults
        rw [if_pos hj, hp]
      | ok v =>
        have hmem : ∃ g ∈ fs, jsonFile g = true ∧ ∃ m, env.parse (env.content g) = Except.error m := by
          rcases List.mem_cons.mp hf' with rfl | hf''
          · rw [hm'] at hp
            cases hp
          · exact ⟨f', hf'', hj', m', hm'⟩
        rcases ih hmem with ⟨m, hm⟩
        refine ⟨m, ?_⟩
        unfold retrieveResults
        rw [if_pos hj, hp]
        simp [hm, Except.map]
    · have hjf : jsonFile f = false := by simpa using hj
      have hmem : ∃ g ∈ fs, jsonFile g = true ∧ ∃ m, env.parse (env.content g) = Except.error m := by
        rcases List.mem_cons.mp hf' with rfl | hf''
        · rw [hj'] at hjf
          cases hjf
        · exact ⟨f', hf'', hj', m', hm'⟩
      rcases ih hmem with ⟨m, hm⟩
      refine ⟨m, ?_⟩
      unfold retrieveResults
      rw [if_neg hj]
      exact hm

/-! ## Claim theorems -/

/-- Claim C10: the job-start payload always contains the constant model
string "saaras:v2" and always includes the `num_speakers` value, for every
input — including when `with_diarization` is false — and the
caller-supplied questions sequence is passed through in order,
unmodified. -/
theorem claim_c10 (jid : String) (wd : Bool) (ns : Nat) (qs : List JValue) :
    ∃ jp, (mkJobParams jid wd ns qs).getField "job_parameters" = some jp
      ∧ jp.getField "model" = some (JValue.str "saaras:v2")
      ∧ jp.getField "num_speakers" = some (JValue.nat ns)
      ∧ jp.getField "questions" = some (JValue.arr qs)
      ∧ (mkJobParams jid wd ns qs).getField "job_id" = some (JValue.str jid) := by
  refine ⟨JValue.obj
      [("model", JValue.str "saaras:v2"),
       ("with_diarization", JValue.bool wd),
       ("num_speakers", JValue.nat ns),
       ("questions", JValue.arr qs)], ?_, ?_, ?_, ?_, ?_⟩ <;>
    simp [mkJobParams, JValue.getField, lookupStr]

/-- Claim C1: for the status sequence Running, Running, Completed the
polling loop performs exactly 2 fixed-interval waits and then proceeds to
result retrieval; for Running, Failed it ends in the failed state with no
retrieval attempted; and for a single null status response it aborts
immediately after one status call, with no wait and no further poll. -/
theorem claim_c1 (env : Env) :
    ((monitorLoop env [some "Running", some "Running", some "Completed"]).1.count Event.wait = 2
      ∧ Event.listCall ∈ (monitorLoop env [some "Running", some "Running", some "Completed"]).1)
    ∧ ((monitorLoop env [some "Running", some "Failed"]).2 = Outcome.jobFailed
      ∧ Event.listCall ∉ (monitorLoop env [some "Running", some "Failed"]).1
      ∧ ∀ f, Event.downloadCall f ∉ (monitorLoop env [some "Running", some "Failed"]).1)
    ∧ (monitorLoop env [none] = ([Event.statusCall, Event.statusFailMsg], Outcome.statusAborted)
      ∧ (monitorLoop env [none]).1.count Event.statusCall = 1
      ∧ (monitorLoop env [none]).1.count Event.wait = 0) := by
  have hr1 : (monitorLoop env [some "Running", some "Running", some "Completed"]).1
      = Event.statusCall :: Event.statusWrite "Running" :: Event.wait ::
        (Event.statusCall :: Event.statusWrite "Running" :: Event.wait ::
          ([Event.statusCall, Event.statusWrite "Completed", Event.completedMsg,
            Event.rebind env.initBody.output_storage_path, Event.listCall]
            ++ (retrieveResults env env.outputFiles).1)) := by
    rw [monitorLoop_run_fst env "Running" _ (by decide) (by decide),
        monitorLoop_run_fst env "Running" _ (by decide) (by decide),
        monitorLoop_completed_fst]
  have hf1 : (monitorLoop env [some "Running", some "Failed"]).1
      = Event.statusCall :: Event.statusWrite "Running" :: Event.wait ::
        [Event.statusCall, Event.statusWrite "Failed", Event.failedMsg] := by
    rw [monitorLoop_run_fst env "Running" _ (by decide) (by decide), monitorLoop_failed]
  have hf2 : (monitorLoop env [some "Running", some "Failed"]).2 = Outcome.jobFailed := by
    rw [monitorLoop_run_snd env "Running" _ (by decide) (by decide), monitorLoop_failed]
  have h0 : (retrieveResults env env.outputFiles).1.count Event.wait = 0 :=
    List.count_eq_zero.mpr (wait_not_mem_retrieve env env.outputFiles)
  refine ⟨⟨?_, ?_⟩, ⟨hf2, ?_, ?_⟩, monitorLoop_none env [], ?_, ?_⟩
  · rw [hr1]
    simp [List.count_cons, List.count_append, h0]
  · rw [hr1]
    simp
  · rw [hf1]
    simp
  · intro f
    rw [hf1]
    simp
  · rw [monitorLoop_none env []]
    decide
  · rw [monitorLoop_none env []]
    decide

/-- Claim C2: exactly when the polled job state is "Completed", the
orchestrator rebinds the storage client to the output location, lists the
files there, and returns one parsed result per listed `.json` file (other
files are skipped), in listing order.  The hypothesis states that every
listed `.json` file parses (parse failures are claim C7's concern). -/
theorem claim_c2 (env : Env) (g : String → JValue)
    (hg : ∀ f ∈ env.outputFiles, jsonFile f = true → env.parse (env.content f) = Except.ok (g f))
    (sts : List (Option String)) :
    ((monitorLoop env sts).2
        = Outcome.results ((env.outputFiles.filter (fun f => jsonFile f)).map g)
      ↔ pollVerdict sts = Verdict.completed)
    ∧ ((∃ rs, (monitorLoop env sts).2 = Outcome.results rs)
      ↔ pollVerdict sts = Verdict.completed)
    ∧ (Event.rebind env.initBody.output_storage_path ∈ (monitorLoop env sts).1
      ↔ pollVerdict sts = Verdict.completed)
    ∧ (Event.listCall ∈ (monitorLoop env sts).1
      ↔ pollVerdict sts = Verdict.completed) := by
  have hro := retrieve_ok env g env.outputFiles hg
  induction sts with
  | nil => simp [monitorLoop, pollVerdict]
  | cons s rest ih =>
    cases s with
    | none => simp [monitorLoop, pollVerdict]
    | some st =>
      by_cases h1 : st = "Completed"
      · subst h1
        have hsnd : (retrieveResults env env.outputFiles).2
            = Except.ok ((env.outputFiles.filter (fun f => jsonFile f)).map g) := by
          rw [hro]
        have hout := monitorLoop_completed_ok env rest _ hsnd
        refine ⟨?_, ?_, ?_, ?_⟩
        · rw [hout, pollVerdict_completed_cons]
          simp
        · rw [pollVerdict_completed_cons]
          exact iff_of_true ⟨_, hout⟩ rfl
        · rw [monitorLoop_completed_fst, pollVerdict_completed_cons]
          simp
        · rw [monitorLoop_completed_fst, pollVerdict_completed_cons]
          simp
      · by_cases h2 : st = "Failed"
        · subst h2
          have hfst : (monitorLoop env (some "Failed" :: rest)).1
              = [Event.statusCall, Event.statusWrite "Failed", Event.failedMsg] := by
            rw [monitorLoop_failed]
          have hsnd : (monitorLoop env (some "Failed" :: rest)).2 = Outcome.jobFailed := by
            rw [monitorLoop_failed]
          rw [pollVerdict_failed_cons]
          refine ⟨?_, ?_, ?_, ?_⟩
          · rw [hsnd]; simp
          · simp only [hsnd]; simp
          · rw [hfst]; simp
          · rw [hfst]; simp
        · rcases ih with ⟨i1, i2, i3, i4⟩
          refine ⟨?_, ?_, ?_, ?_⟩
          · rw [monitorLoop_run_snd env st rest h1 h2, pollVerdict_cons st rest h1 h2]
            exact i1
          · rw [monitorLoop_run_snd env st rest h1 h2, pollVerdict_cons st rest h1 h2]
            exact i2
          · rw [monitorLoop_run_fst env st rest h1 h2, pollVerdict_cons st rest h1 h2]
            simpa using i3
          · rw [monitorLoop_run_fst env st rest h1 h2, pollVerdict_cons st rest h1 h2]
            simpa using i4

/-- Witness for claim C2 at a concrete completed run: files
`r1.json`, `notes.txt`, `r2.json` yield exactly the parses of the two
`.json` files, in listing order. -/
theorem claim_c2_witness :
    (monitorLoop envC2 [some "Completed"]).2
      = Outcome.results ((envC2.outputFiles.filter (fun f => jsonFile f)).map gC2) :=
  ((claim_c2 envC2 gC2 (by
      intro f hf hj
      simp [envC2] at hf
      rcases hf with rfl | rfl | rfl <;> rfl) [some "Completed"]).1).mpr (by decide)

/-- Claim C6: per-file upload outcomes are independent — a failing file and
a succeeding file are both reported, no exception escapes the upload
phase, and the run proceeds to the job-start phase regardless. -/
theorem claim_c6 (env : Env) (files : List String) (qs : List JValue) (ns : Nat) (wd : Bool)
    (a b ea : String)
    (h202 : env.initCode = 202)
    (ha : a ∈ files) (hb : b ∈ files)
    (hfa : env.uploadOp a = Except.error ea) (hfb : env.uploadOp b = Except.ok ()) :
    Event.uploadFailMsg a ea ∈ (processBatchJob env files qs ns wd).1
    ∧ Event.uploadOkMsg b ∈ (processBatchJob env files qs ns wd).1
    ∧ Event.startCall ∈ (processBatchJob env files qs ns wd).1 := by
  by_cases h200 : env.startCode = 200
  · rw [processBatchJob_202_200 env files qs ns wd h202 h200]
    refine ⟨?_, ?_, ?_⟩
    · exact List.mem_cons_of_mem _ (List.mem_cons_of_mem _
        (List.mem_append_left _ (uploadFail_mem env ha hfa)))
    · exact List.mem_cons_of_mem _ (List.mem_cons_of_mem _
        (List.mem_append_left _ (uploadOk_mem env hb hfb)))
    · exact List.mem_cons_of_mem _ (List.mem_cons_of_mem _
        (List.mem_append_right _ (List.mem_cons_self _ _)))
  · rw [processBatchJob_202_not200 env files qs ns wd h202 h200]
    refine ⟨?_, ?_, ?_⟩
    · exact List.mem_cons_of_mem _ (List.mem_cons_of_mem _
        (List.mem_append_left _ (uploadFail_mem env ha hfa)))
    · exact List.mem_cons_of_mem _ (List.mem_cons_of_mem _
        (List.mem_append_left _ (uploadOk_mem env hb hfb)))
    · exact List.mem_cons_of_mem _ (List.mem_cons_of_mem _
        (List.mem_append_right _ (List.mem_cons_self _ _)))

/-- Witness for claim C6: `a.wav` fails to upload, `b.wav` succeeds; both
messages appear and the start request is still sent. -/
theorem claim_c6_witness :
    Event.uploadFailMsg "a.wav" "ConnectionError"
        ∈ (processBatchJob envC6 ["a.wav", "b.wav"] [] 2 true).1
    ∧ Event.uploadOkMsg "b.wav" ∈ (processBatchJob envC6 ["a.wav", "b.wav"] [] 2 true).1
    ∧ Event.startCall ∈ (processBatchJob envC6 ["a.wav", "b.wav"] [] 2 true).1 :=
  claim_c6 envC6 ["a.wav", "b.wav"] [] 2 true "a.wav" "b.wav" "ConnectionError" rfl
    (by decide) (by decide) rfl rfl

/-- Counterexample for claim C7 as stated: in `envC7` the listing has one
parseable and one malformed `.json` file, yet the run returns no results —
the parse exception reaches the outer handler, which reports it and
returns `None`, discarding the parseable file's result. -/
theorem claim_c7_counterexample :
    envC7.parse (envC7.content "good.json") = Except.ok (JValue.str "fine")
    ∧ envC7.parse (envC7.content "bad.json") = Except.error "Expecting value"
    ∧ (monitorLoop envC7 [some "Completed"]).2
        = Outcome.caught ("Error processing batch job: " ++ "Expecting value") :=
  ⟨rfl, rfl, rfl⟩

/-- Claim C7 (amended): a JSON parse failure on any downloaded result file
aborts the whole retrieval — the exception propagates to the top-level
handler, which reports it, and the run returns no results at all. -/
theorem claim_c7 (env : Env) (sts : List (Option String))
    (hv : pollVerdict sts = Verdict.completed)
    (hf : ∃ f ∈ env.outputFiles, jsonFile f = true
            ∧ ∃ m, env.parse (env.content f) = Except.error m) :
    (∃ m, (monitorLoop env sts).2 = Outcome.caught ("Error processing batch job: " ++ m))
    ∧ ∀ rs, (monitorLoop env sts).2 ≠ Outcome.results rs := by
  induction sts with
  | nil => simp [pollVerdict] at hv
  | cons s rest ih =>
    cases s with
    | none => simp [pollVerdict] at hv
    | some st =>
      by_cases h1 : st = "Completed"
      · subst h1
        obtain ⟨m, hm⟩ := retrieve_err env env.outputFiles hf
        have hout := monitorLoop_completed_err env rest m hm
        exact ⟨⟨m, hout⟩, fun rs h => by rw [hout] at h; exact Outcome.noConfusion h⟩
      · by_cases h2 : st = "Failed"
        · subst h2
          rw [pollVerdict_failed_cons] at hv
          exact absurd hv (by decide)
        · rw [pollVerdict_cons st rest h1 h2] at hv
          have hrec := ih hv
          constructor
          · rcases hrec.1 with ⟨m, hm⟩
            exact ⟨m, by rw [monitorLoop_run_snd env st rest h1 h2]; exact hm⟩
          · intro rs h
            rw [monitorLoop_run_snd env st rest h1 h2] at h
            exact hrec.2 rs h

/-- Witness for the amended claim C7: with one malformed `.json` file in
the listing, the concrete run returns no result list. -/
theorem claim_c7_witness :
    (monitorLoop envC7 [some "Completed"]).2 ≠ Outcome.results [] :=
  (claim_c7 envC7 [some "Completed"] (by decide)
    ⟨"bad.json", by decide, by decide, "Expecting value", rfl⟩).2 []

/-- Claim C8: job initialization succeeds exactly on HTTP 202, returning
the parsed body; any other status aborts the run before any upload, with
the raw response body surfaced as detail, and the init request is sent
exactly once (no retry). -/
theorem claim_c8 (env : Env) (files : List String) (qs : List JValue) (ns : Nat) (wd : Bool) :
    ((initializeJob env).2 = some env.initBody ↔ env.initCode = 202)
    ∧ (env.initCode ≠ 202 →
        processBatchJob env files qs ns wd
          = ([Event.initCall,
              Event.initFailMsg ("Failed to initialize job: " ++ env.initText)],
             Outcome.initFailed))
    ∧ (processBatchJob env files qs ns wd).1.count Event.initCall = 1 := by
  refine ⟨?_, ?_, ?_⟩
  · by_cases h : env.initCode = 202
    · rw [initializeJob_202 env h]
      simp [h]
    · rw [initializeJob_not202 env h]
      simp [h]
  · intro h
    exact processBatchJob_not202 env files qs ns wd h
  · by_cases h : env.initCode = 202
    · by_cases h2 : env.startCode = 200
      · rw [processBatchJob_202_200 env files qs ns wd h h2]
        simp [List.count_cons, List.count_append,
          List.count_eq_zero.mpr (initCall_not_mem_upload env files),
          List.count_eq_zero.mpr (initCall_not_mem_monitor env env.statuses)]
      · rw [processBatchJob_202_not200 env files qs ns wd h h2]
        simp [List.count_cons, List.count_append,
          List.count_eq_zero.mpr (initCall_not_mem_upload env files)]
    · rw [processBatchJob_not202 env files qs ns wd h]
      simp [List.count_cons]

/-- Witness for claim C8: a 404 init response aborts the run with only the
init call and its error report in the trace. -/
theorem claim_c8_witness :
    processBatchJob envC8 [] [] 2 true
      = ([Event.initCall,
          Event.initFailMsg ("Failed to initialize job: " ++ envC8.initText)],
         Outcome.initFailed) :=
  (claim_c8 envC8 [] [] 2 true).2.1 (by decide)

/-! ## Lemmas about the modelled urlsplit/urlparse -/

theorem schemeChar_colon_false {x : Char} (h : schemeChar x = true) : (x == ':') = false := by
  cases hxc : x == ':'
  · rfl
  · have hx : x = ':' := eq_of_beq hxc
    subst hx
    exact absurd h (by decide)

theorem schemeChar_not_removed {x : Char} (h : schemeChar x = true) : isRemovedByte x = false := by
  cases hr : isRemovedByte x
  · rfl
  · have hx : (x = '\t' ∨ x = '\n') ∨ x = '\r' := by
      simpa [isRemovedByte] using hr
    rcases hx with (rfl | rfl) | rfl <;> exact absurd h (by decide)

theorem pathSegChar_spec {x : Char} (h : pathSegChar x = true) :
    (x == '/') = false ∧ (x == '?') = false ∧ (x == '#') = false ∧ (x == ';') = false
      ∧ isRemovedByte x = false := by
  unfold pathSegChar at h
  simp only [Bool.not_eq_true', Bool.or_eq_false_iff] at h
  exact ⟨h.1.1.1.1, h.1.1.1.2, h.1.1.2, h.1.2, h.2⟩

theorem removeBytes_eq_self (s : List Char) (h : ∀ x ∈ s, isRemovedByte x = false) :
    removeBytes s = s := by
  unfold removeBytes
  refine List.filter_eq_self.mpr ?_
  intro a ha
  simp [h a ha]

theorem splitScheme_append (scheme rest : List Char)
    (h0 : scheme ≠ []) (h1 : (scheme.headD ' ').isAlpha = true)
    (h2 : ∀ x ∈ scheme, schemeChar x = true)
    (h3 : scheme.map Char.toLower = scheme) :
    splitScheme (scheme ++ ':' :: rest) = (scheme, rest) := by
  have hcolon : ∀ x ∈ scheme, ((fun c => c == ':') x) = false := fun x hx =>
    schemeChar_colon_false (h2 x hx)
  have hfi : firstIdx (fun c => c == ':') (scheme ++ ':' :: rest) = some scheme.length :=
    firstIdx_append scheme rest hcolon (by decide)
  have htake : (scheme ++ ':' :: rest).take scheme.length = scheme := List.take_left scheme _
  have hdrop : (scheme ++ ':' :: rest).drop (scheme.length + 1) = rest := by
    rw [List.append_cons scheme ':' rest]
    have hd := List.drop_left (scheme ++ [':']) rest
    rw [List.length_append] at hd
    exact hd
  have hhead : (scheme ++ ':' :: rest).headD ' ' = scheme.headD ' ' := by
    rcases List.exists_cons_of_ne_nil h0 with ⟨c, s', rfl⟩
    simp
  have hcond : 0 < scheme.length
      ∧ ((scheme ++ ':' :: rest).headD ' ').isAlpha = true
      ∧ ((scheme ++ ':' :: rest).take scheme.length).all schemeChar = true := by
    refine ⟨List.length_pos.mpr h0, ?_, ?_⟩
    · rw [hhead]; exact h1
    · rw [htake]; exact List.all_eq_true.mpr h2
  simp only [splitScheme, hfi]
  rw [if_pos hcond, htake, h3, hdrop]

theorem urlsplitL_composed (scheme host prest : List Char)
    (h0 : scheme ≠ []) (h1 : (scheme.headD ' ').isAlpha = true)
    (h2 : ∀ x ∈ scheme, schemeChar x = true)
    (h3 : scheme.map Char.toLower = scheme)
    (hh : ∀ x ∈ host, netlocDelim x = false)
    (hhb : ∀ x ∈ host, isRemovedByte x = false)
    (hpb : ∀ x ∈ prest, isRemovedByte x = false) :
    urlsplitL (scheme ++ ':' :: '/' :: '/' :: (host ++ '/' :: prest))
      = ⟨scheme, host,
         takeUntil (fun c => c == '?') (takeUntil (fun c => c == '#') ('/' :: prest)),
         (dropUntil (fun c => c == '?') (takeUntil (fun c => c == '#') ('/' :: prest))).drop 1,
         (dropUntil (fun c => c == '#') ('/' :: prest)).drop 1⟩ := by
  have hsb : ∀ x ∈ scheme, isRemovedByte x = false := fun x hx =>
    schemeChar_not_removed (h2 x hx)
  have hclean : removeBytes (scheme ++ ':' :: '/' :: '/' :: (host ++ '/' :: prest))
      = scheme ++ ':' :: '/' :: '/' :: (host ++ '/' :: prest) := by
    apply removeBytes_eq_self
    intro x hx
    rcases List.mem_append.mp hx with hs | hrest
    · exact hsb x hs
    · rcases List.mem_cons.mp hrest with rfl | hrest
      · decide
      · rcases List.mem_cons.mp hrest with rfl | hrest
        · decide
        · rcases List.mem_cons.mp hrest with rfl | hrest
          · decide
          · rcases List.mem_append.mp hrest with hhost | hrest
            · exact hhb x hhost
            · rcases List.mem_cons.mp hrest with rfl | hrest
              · decide
              · exact hpb x hrest
  have key : splitScheme (removeBytes (scheme ++ ':' :: '/' :: '/' :: (host ++ '/' :: prest)))
      = (scheme, '/' :: '/' :: (host ++ '/' :: prest)) := by
    rw [hclean]
    exact splitScheme_append scheme _ h0 h1 h2 h3
  have hTU : takeUntil netlocDelim (host ++ '/' :: prest) = host :=
    takeUntil_append host prest hh (by decide)
  have hDU : dropUntil netlocDelim (host ++ '/' :: prest) = '/' :: prest :=
    dropUntil_append host prest hh (by decide)
  simp only [urlsplitL, key]
  simp [hTU, hDU]

theorem dropWhile_eq_self_of_head {p : Char → Bool} (s : List Char)
    (h : ∀ hd, s.head? = some hd → p hd = false) : s.dropWhile p = s := by
  cases s with
  | nil => rfl
  | cons x xs =>
    have hx := h x rfl
    rw [List.dropWhile_cons]
    simp [hx]

/-- Claim C3: storage-URL parsing is a pure function: every well-formed URL
of shape `scheme://host/container/a/b?token` parses to the four components
endpoint = tier-normalized `scheme://host`, container = first path
segment, directory = `a/b`, token = the raw query string verbatim. -/
theorem claim_c3 (scheme host container a b token : List Char)
    (h0 : scheme ≠ []) (h1 : (scheme.headD ' ').isAlpha = true)
    (h2 : ∀ x ∈ scheme, schemeChar x = true)
    (h3 : scheme.map Char.toLower = scheme)
    (hh : ∀ x ∈ host, netlocDelim x = false ∧ isRemovedByte x = false)
    (hc0 : container ≠ []) (hc : ∀ x ∈ container, pathSegChar x = true)
    (_ha0 : a ≠ []) (hA : ∀ x ∈ a, pathSegChar x = true)
    (hb0 : b ≠ []) (hB : ∀ x ∈ b, pathSegChar x = true)
    (ht : ∀ x ∈ token, (x == '#') = false ∧ isRemovedByte x = false) :
    extractUrlComponents (scheme ++ "://".toList ++ host ++ "/".toList ++ container
        ++ "/".toList ++ a ++ "/".toList ++ b ++ "?".toList ++ token)
      = ⟨tierNormalize (scheme ++ "://".toList ++ host), container,
         a ++ "/".toList ++ b, token⟩ := by
  have t1 : "://".toList = [':', '/', '/'] := rfl
  have t2 : "/".toList = ['/'] := rfl
  have t3 : "?".toList = ['?'] := rfl
  have hurl : scheme ++ "://".toList ++ host ++ "/".toList ++ container
        ++ "/".toList ++ a ++ "/".toList ++ b ++ "?".toList ++ token
      = scheme ++ ':' :: '/' :: '/' ::
          (host ++ '/' :: (container ++ '/' :: (a ++ '/' :: (b ++ '?' :: token)))) := by
    rw [t1, t2, t3]
    simp
  have hprest : ∀ x ∈ container ++ '/' :: (a ++ '/' :: (b ++ '?' :: token)),
      isRemovedByte x = false := by
    intro x hx
    rcases List.mem_append.mp hx with h | h
    · exact (pathSegChar_spec (hc x h)).2.2.2.2
    · rcases List.mem_cons.mp h with rfl | h
      · decide
      · rcases List.mem_append.mp h with h | h
        · exact (pathSegChar_spec (hA x h)).2.2.2.2
        · rcases List.mem_cons.mp h with rfl | h
          · decide
          · rcases List.mem_append.mp h with h | h
            · exact (pathSegChar_spec (hB x h)).2.2.2.2
            · rcases List.mem_cons.mp h with rfl | h
              · decide
              · exact (ht x h).2
  have hsplit := urlsplitL_composed scheme host
      (container ++ '/' :: (a ++ '/' :: (b ++ '?' :: token)))
      h0 h1 h2 h3 (fun x hx => (hh x hx).1) (fun x hx => (hh x hx).2) hprest
  have hnohash : ∀ x ∈ ('/' :: (container ++ '/' :: (a ++ '/' :: (b ++ '?' :: token)))),
      ((fun c => c == '#') x) = false := by
    intro x hx
    rcases List.mem_cons.mp hx with rfl | hx
    · decide
    · rcases List.mem_append.mp hx with h | h
      · exact (pathSegChar_spec (hc x h)).2.2.1
      · rcases List.mem_cons.mp h with rfl | h
        · decide
        · rcases List.mem_append.mp h with h | h
          · exact (pathSegChar_spec (hA x h)).2.2.1
          · rcases List.mem_cons.mp h with rfl | h
            · decide
            · rcases List.mem_append.mp h with h | h
              · exact (pathSegChar_spec (hB x h)).2.2.1
              · rcases List.mem_cons.mp h with rfl | h
                · decide
                · exact (ht x h).1
  have hTU1 : takeUntil (fun c => c == '#')
        ('/' :: (container ++ '/' :: (a ++ '/' :: (b ++ '?' :: token))))
      = '/' :: (container ++ '/' :: (a ++ '/' :: (b ++ '?' :: token))) :=
    takeUntil_eq_self _ hnohash
  have hDU1 : dropUntil (fun c => c == '#')
        ('/' :: (container ++ '/' :: (a ++ '/' :: (b ++ '?' :: token)))) = [] :=
    dropUntil_eq_nil _ hnohash
  have hshape : '/' :: (container ++ '/' :: (a ++ '/' :: (b ++ '?' :: token)))
      = ('/' :: (container ++ '/' :: (a ++ '/' :: b))) ++ '?' :: token := by
    simp
  have hnoq : ∀ x ∈ ('/' :: (container ++ '/' :: (a ++ '/' :: b))),
      ((fun c => c == '?') x) = false := by
    intro x hx
    rcases List.mem_cons.mp hx with rfl | hx
    · decide
    · rcases List.mem_append.mp hx with h | h
      · exact (pathSegChar_spec (hc x h)).2.1
      · rcases List.mem_cons.mp h with rfl | h
        · decide
        · rcases List.mem_append.mp h with h | h
          · exact (pathSegChar_spec (hA x h)).2.1
          · rcases List.mem_cons.mp h with rfl | h
            · decide
            · exact (pathSegChar_spec (hB x h)).2.1
  have hTU2 : takeUntil (fun c => c == '?')
        ('/' :: (container ++ '/' :: (a ++ '/' :: (b ++ '?' :: token))))
      = '/' :: (container ++ '/' :: (a ++ '/' :: b)) := by
    rw [hshape]
    exact takeUntil_append _ _ hnoq (by decide)
  have hDU2 : dropUntil (fun c => c == '?')
        ('/' :: (container ++ '/' :: (a ++ '/' :: (b ++ '?' :: token))))
      = '?' :: token := by
    rw [hshape]
    exact dropUntil_append _ _ hnoq (by decide)
  have hsplitv : urlsplitL (scheme ++ ':' :: '/' :: '/' ::
        (host ++ '/' :: (container ++ '/' :: (a ++ '/' :: (b ++ '?' :: token)))))
      = ⟨scheme, host, '/' :: (container ++ '/' :: (a ++ '/' :: b)), token, []⟩ := by
    rw [hsplit, hTU1, hTU2, hDU2, hDU1]
    rfl
  have hnosemi : pyContains ';' ('/' :: (container ++ '/' :: (a ++ '/' :: b))) = false := by
    apply pyContains_eq_false
    intro x hx
    rcases List.mem_cons.mp hx with rfl | hx
    · decide
    · rcases List.mem_append.mp hx with h | h
      · exact (pathSegChar_spec (hc x h)).2.2.2.1
      · rcases List.mem_cons.mp h with rfl | h
        · decide
        · rcases List.mem_append.mp h with h | h
          · exact (pathSegChar_spec (hA x h)).2.2.2.1
          · rcases List.mem_cons.mp h with rfl | h
            · decide
            · exact (pathSegChar_spec (hB x h)).2.2.2.1
  have hparse : urlparseL (scheme ++ ':' :: '/' :: '/' ::
        (host ++ '/' :: (container ++ '/' :: (a ++ '/' :: (b ++ '?' :: token)))))
      = ⟨scheme, host, '/' :: (container ++ '/' :: (a ++ '/' :: b)), [], token, []⟩ := by
    simp only [urlparseL, hsplitv]
    simp [hnosemi]
  have hqlast : ∀ g, (container ++ '/' :: (a ++ '/' :: b)).getLast? = some g →
      (g == '/') = false := by
    intro g hg
    rw [getLast?_append_right container _ (by simp),
        getLast?_cons_ne_nil _ _ (by simp),
        getLast?_append_right a _ (by simp),
        getLast?_cons_ne_nil _ _ hb0] at hg
    exact (pathSegChar_spec (hB g (getLast?_mem hg))).1
  have hstrip : pyStrip '/' ('/' :: (container ++ '/' :: (a ++ '/' :: b)))
      = container ++ '/' :: (a ++ '/' :: b) := by
    unfold pyStrip
    rw [List.dropWhile_cons, if_pos (by decide)]
    rw [dropWhile_eq_self_of_head _ (fun hd hhd => by
      rw [head?_append_left container _ hc0] at hhd
      exact (pathSegChar_spec (hc hd (head?_mem hhd))).1)]
    exact dropTrailing_eq_self _ hqlast
  have hsplitq : pySplit '/' (container ++ '/' :: (a ++ '/' :: b)) = [container, a, b] := by
    rw [pySplit_append container _ (fun x hx => (pathSegChar_spec (hc x hx)).1),
        pySplit_append a _ (fun x hx => (pathSegChar_spec (hA x hx)).1),
        pySplit_eq_single b (fun x hx => (pathSegChar_spec (hB x hx)).1)]
  rw [hurl]
  simp only [extractUrlComponents, hparse, hstrip, hsplitq]
  simp [pyJoin, t2]

/-- Witness for claim C3 at a concrete well-formed storage URL. -/
theorem claim_c3_witness :
    extractUrlComponents ("https".toList ++ "://".toList
        ++ "acct.blob.core.windows.net".toList ++ "/".toList ++ "fs".toList
        ++ "/".toList ++ "dir".toList ++ "/".toList ++ "sub".toList
        ++ "?".toList ++ "sv=2024&sig=abc".toList)
      = ⟨tierNormalize ("https".toList ++ "://".toList ++ "acct.blob.core.windows.net".toList),
         "fs".toList, "dir".toList ++ "/".toList ++ "sub".toList, "sv=2024&sig=abc".toList⟩ :=
  claim_c3 "https".toList "acct.blob.core.windows.net".toList "fs".toList "dir".toList
    "sub".toList "sv=2024&sig=abc".toList (by decide) (by decide) (by decide) (by decide)
    (by decide) (by decide) (by decide) (by decide) (by decide) (by decide) (by decide)
    (by decide)

theorem urlparseL_scheme (url : List Char) : (urlparseL url).scheme = (urlsplitL url).scheme := by
  simp only [urlparseL]
  split <;> rfl

theorem urlparseL_netloc (url : List Char) : (urlparseL url).netloc = (urlsplitL url).netloc := by
  simp only [urlparseL]
  split <;> rfl

theorem urlparseL_query (url : List Char) : (urlparseL url).query = (urlsplitL url).query := by
  simp only [urlparseL]
  split <;> rfl

theorem isPre_cons_false {p b : Char} (pt r : List Char) (h : (p == b) = false) :
    isPre (p :: pt) (b :: r) = false := by
  show ((p == b) && isPre pt r) = false
  rw [h]
  rfl

theorem markerFree_append_cond (scheme host : List Char)
    (hs : containsSub ".blob.".toList scheme = false) :
    ∀ i < (scheme ++ [':', '/', '/']).length,
      isPre ".blob.".toList (List.drop i (scheme ++ [':', '/', '/']) ++ host) = false := by
  intro i hi
  have hi3 : i < scheme.length + 3 := by simpa using hi
  rcases Nat.lt_or_ge i scheme.length with hlt | hge
  · rw [List.drop_append_of_le_length (Nat.le_of_lt hlt), List.append_assoc]
    cases hP : isPre ".blob.".toList (List.drop i scheme ++ ([':', '/', '/'] ++ host)) with
    | false => rfl
    | true =>
      exfalso
      rcases Nat.lt_or_ge (List.drop i scheme).length (".blob.".toList.length) with hk | hk
      · have hmem := mem_of_isPre_append (['/', '/'] ++ host) hP hk
        exact absurd hmem (by decide)
      · have hpre := isPre_of_isPre_append _ hP hk
        have hcon := containsSub_of_isPre_drop i hpre (by decide)
        rw [hs] at hcon
        exact Bool.noConfusion hcon
  · have h3cases : i = scheme.length ∨ i = scheme.length + 1 ∨ i = scheme.length + 2 := by
      omega
    rcases h3cases with rfl | rfl | rfl
    · rw [List.drop_left scheme [':', '/', '/']]
      exact isPre_cons_false _ _ (by decide)
    · have hd : List.drop (scheme.length + 1) (scheme ++ [':', '/', '/']) = ['/', '/'] := by
        have hd2 := List.drop_left (scheme ++ [':']) ['/', '/']
        rw [List.length_append] at hd2
        rw [show scheme ++ [':', '/', '/'] = (scheme ++ [':']) ++ ['/', '/'] from by simp]
        exact hd2
      rw [hd]
      exact isPre_cons_false _ _ (by decide)
    · have hd : List.drop (scheme.length + 2) (scheme ++ [':', '/', '/']) = ['/'] := by
        have hd2 := List.drop_left (scheme ++ [':', '/']) ['/']
        rw [List.length_append] at hd2
        rw [show scheme ++ [':', '/', '/'] = (scheme ++ [':', '/']) ++ ['/'] from by simp]
        exact hd2
      rw [hd]
      exact isPre_cons_false _ _ (by decide)

/-- Counterexample for claim C4 as stated: for the URL `x.blob.y://host/c`
the host contains no blob-tier marker, yet the endpoint is not
`scheme://host` unchanged — the rewrite also fires inside the scheme. -/
theorem claim_c4_counterexample :
    containsSub ".blob.".toList (urlparseL "x.blob.y://host/c".toList).netloc = false
    ∧ (extractUrlComponents "x.blob.y://host/c".toList).account_url = "x.dfs.y://host".toList
    ∧ (extractUrlComponents "x.blob.y://host/c".toList).account_url
        ≠ (urlparseL "x.blob.y://host/c".toList).scheme ++ "://".toList
            ++ (urlparseL "x.blob.y://host/c".toList).netloc := by
  refine ⟨by decide, by decide, by decide⟩

/-- Claim C4 (amended): the tier rewrite is applied to the whole
`scheme://host` string.  Provided the scheme itself does not contain the
blob-tier marker, the endpoint is `scheme://` followed by the host with
every (leftmost, non-overlapping) occurrence of the marker replaced by the
hierarchical-tier marker; in particular a host without the marker is
unchanged. -/
theorem claim_c4 (scheme host rest : List Char)
    (h0 : scheme ≠ []) (h1 : (scheme.headD ' ').isAlpha = true)
    (h2 : ∀ x ∈ scheme, schemeChar x = true)
    (h3 : scheme.map Char.toLower = scheme)
    (hs : containsSub ".blob.".toList scheme = false)
    (hh : ∀ x ∈ host, netlocDelim x = false ∧ isRemovedByte x = false)
    (hr : ∀ x ∈ rest, isRemovedByte x = false) :
    (extractUrlComponents (scheme ++ "://".toList ++ host ++ '/' :: rest)).account_url
      = scheme ++ "://".toList ++ replaceAll ".blob.".toList ".dfs.".toList host
    ∧ (containsSub ".blob.".toList host = false →
        (extractUrlComponents (scheme ++ "://".toList ++ host ++ '/' :: rest)).account_url
          = scheme ++ "://".toList ++ host) := by
  have t1 : "://".toList = [':', '/', '/'] := rfl
  have hurl : scheme ++ "://".toList ++ host ++ '/' :: rest
      = scheme ++ ':' :: '/' :: '/' :: (host ++ '/' :: rest) := by
    rw [t1]
    simp
  have hsplit := urlsplitL_composed scheme host rest h0 h1 h2 h3
    (fun x hx => (hh x hx).1) (fun x hx => (hh x hx).2) hr
  have hacct : (extractUrlComponents (scheme ++ ':' :: '/' :: '/' :: (host ++ '/' :: rest))).account_url
      = tierNormalize (scheme ++ "://".toList ++ host) := by
    simp only [extractUrlComponents, urlparseL_scheme, urlparseL_netloc, hsplit]
  have hbound : tierNormalize (scheme ++ "://".toList ++ host)
      = scheme ++ "://".toList ++ replaceAll ".blob.".toList ".dfs.".toList host := by
    unfold tierNormalize
    rw [t1]
    exact replaceAll_append _ _ (scheme ++ [':', '/', '/']) host
      (markerFree_append_cond scheme host hs)
  constructor
  · rw [hurl, hacct, hbound]
  · intro hhost
    rw [hurl, hacct, hbound, replaceAll_of_not_contains _ _ host hhost]

/-- Witness for the amended claim C4: a host with the marker is rewritten,
the scheme (marker-free) is untouched. -/
theorem claim_c4_witness :
    (extractUrlComponents ("https".toList ++ "://".toList
        ++ "acct.blob.core.windows.net".toList ++ '/' :: "fs?sas".toList)).account_url
      = "https".toList ++ "://".toList
          ++ replaceAll ".blob.".toList ".dfs.".toList "acct.blob.core.windows.net".toList :=
  (claim_c4 "https".toList "acct.blob.core.windows.net".toList "fs?sas".toList
    (by decide) (by decide) (by decide) (by decide) (by decide) (by decide) (by decide)).1

/-- Counterexample for claim C9 as stated: a URL whose path has an empty
segment right after the container yields a stored directory with a LEADING
path separator. -/
theorem claim_c9_counterexample :
    (extractUrlComponents "https://acct/fs//dir?sas".toList).directory_name
      = '/' :: "dir".toList := by
  decide

/-- Claim C9 (amended): at construction and after every rebind the stored
state is the extracted components; the stored token is the raw query
string verbatim; the stored directory never has a trailing separator; and
it has no leading separator provided no segment of the stripped path is
empty (no `//` inside the path after the container). -/
theorem claim_c9 (s : Components) (url : List Char) :
    s.update_url url = sarvamClientInit url
    ∧ (sarvamClientInit url).sas_token = (urlsplitL url).query
    ∧ (sarvamClientInit url).directory_name.getLast? ≠ some '/'
    ∧ (([] : List Char) ∉ pySplit '/' (pyStrip '/' (urlparseL url).path) →
        (sarvamClientInit url).directory_name.head? ≠ some '/') := by
  refine ⟨rfl, ?_, ?_, ?_⟩
  · show (extractUrlComponents url).sas_token = _
    simp only [extractUrlComponents]
    exact urlparseL_query url
  · intro hcon
    simp only [sarvamClientInit, extractUrlComponents] at hcon
    rcases hdp : (pySplit '/' (pyStrip '/' (urlparseL url).path)).drop 1 with _ | ⟨p0, ps⟩
    · rw [hdp] at hcon
      exact Option.noConfusion hcon
    · have hne : (pySplit '/' (pyStrip '/' (urlparseL url).path)).drop 1 ≠ [] := by
        rw [hdp]
        simp
      have hlast2 := getLast?_drop_ne_nil (pySplit '/' (pyStrip '/' (urlparseL url).path)) 1 hne
      rcases hq : ((pySplit '/' (pyStrip '/' (urlparseL url).path)).drop 1).getLast? with _ | q
      · rw [hdp, List.getLast?_eq_getLast (p0 :: ps) (by simp)] at hq
        exact Option.noConfusion hq
      · have hqpieces : (pySplit '/' (pyStrip '/' (urlparseL url).path)).getLast? = some q := by
          rw [← hlast2]
          exact hq
        rcases pySplit_getLast_ne_nil (pyStrip '/' (urlparseL url).path)
            (fun g hg => pyStrip_getLast _ hg) hqpieces with hqne | hstripnil
        · have hjoin : (pyJoin "/".toList
              ((pySplit '/' (pyStrip '/' (urlparseL url).path)).drop 1)).getLast? = q.getLast? :=
            pyJoin_getLast hq hqne
          rw [hjoin] at hcon
          have hqmem : q ∈ pySplit '/' (pyStrip '/' (urlparseL url).path) :=
            getLast?_mem hqpieces
          have hfree := pySplit_pieces (pyStrip '/' (urlparseL url).path) q hqmem '/'
            (getLast?_mem hcon)
          simp at hfree
        · rw [hstripnil] at hdp
          simp [pySplit] at hdp
  · intro hnil hcon
    simp only [sarvamClientInit, extractUrlComponents] at hcon
    rcases hdp : (pySplit '/' (pyStrip '/' (urlparseL url).path)).drop 1 with _ | ⟨p0, ps⟩
    · rw [hdp] at hcon
      exact Option.noConfusion hcon
    · rw [hdp] at hcon
      have hp0 : p0 ∈ pySplit '/' (pyStrip '/' (urlparseL url).path) :=
        List.mem_of_mem_drop (by rw [hdp]; simp)
      have hp0ne : p0 ≠ [] := fun h => hnil (h ▸ hp0)
      rw [pyJoin_head ps hp0ne] at hcon
      exact absurd (pySplit_pieces _ p0 hp0 '/' (head?_mem hcon)) (by simp)

/-- Witness for the amended claim C9 at a concrete URL with nonempty path
segments. -/
theorem claim_c9_witness :
    Components.update_url ⟨[], [], [], []⟩ "https://acct/fs/dir/sub?sas".toList
        = sarvamClientInit "https://acct/fs/dir/sub?sas".toList
    ∧ (sarvamClientInit "https://acct/fs/dir/sub?sas".toList).directory_name.head? ≠ some '/' :=
  ⟨(claim_c9 ⟨[], [], [], []⟩ "https://acct/fs/dir/sub?sas".toList).1,
   (claim_c9 ⟨[], [], [], []⟩ "https://acct/fs/dir/sub?sas".toList).2.2.2 (by decide)⟩

/-- Counterexample for claim C5 as stated: a storage URL with no container
segment parses without any error — the container comes back as the empty
string — and the orchestrator still attempts the upload. -/
theorem claim_c5_counterexample :
    extractUrlComponents "https://host?sas".toList
      = ⟨"https://host".toList, [], [], "sas".toList⟩
    ∧ Event.uploadAttempt "a.wav" ∈ (processBatchJob envC5 ["a.wav"] [] 2 true).1 := by
  constructor
  · decide
  · decide

/-- Claim C5 (amended): parsing is total and never raises, for every
storage URL — `MalformedLocationError` has no counterpart in the code.
A URL whose path has no segments yields an empty container and directory;
a URL with no scheme yields the endpoint `://` followed by the host (empty
scheme slot); a URL with no host yields the endpoint `scheme://` (empty
host slot; the marker-free side conditions keep the tier rewrite out of
the way).  And after a successful init, the orchestrator binds the storage
client to whatever input path the API returned and attempts every upload,
with no validation step in between. -/
theorem claim_c5 (env : Env) (files : List String) (qs : List JValue) (ns : Nat) (wd : Bool)
    (f : String) (url : List Char) (h202 : env.initCode = 202) (hf : f ∈ files) :
    (pyStrip '/' (urlparseL url).path = [] →
        (extractUrlComponents url).file_system_name = []
        ∧ (extractUrlComponents url).directory_name = [])
    ∧ ((urlparseL url).scheme = [] →
        containsSub ".blob.".toList (urlparseL url).netloc = false →
        (extractUrlComponents url).account_url = "://".toList ++ (urlparseL url).netloc)
    ∧ ((urlparseL url).netloc = [] →
        containsSub ".blob.".toList (urlparseL url).scheme = false →
        (extractUrlComponents url).account_url = (urlparseL url).scheme ++ "://".toList)
    ∧ Event.bindClient env.initBody.input_storage_path ∈ (processBatchJob env files qs ns wd).1
    ∧ Event.uploadAttempt f ∈ (processBatchJob env files qs ns wd).1 := by
  have t1 : "://".toList = [':', '/', '/'] := rfl
  refine ⟨?_, ?_, ?_, ?_, ?_⟩
  · intro hstrip
    constructor
    · show (extractUrlComponents url).file_system_name = []
      simp only [extractUrlComponents]
      rw [hstrip]
      rfl
    · show (extractUrlComponents url).directory_name = []
      simp only [extractUrlComponents]
      rw [hstrip]
      rfl
  · intro hscheme hnet
    simp only [extractUrlComponents]
    rw [hscheme]
    unfold tierNormalize
    rw [t1, List.nil_append]
    have hcond : ∀ i < ([':', '/', '/'] : List Char).length,
        isPre ".blob.".toList
          (List.drop i [':', '/', '/'] ++ (urlparseL url).netloc) = false := by
      intro i hi
      have h3cases : i = 0 ∨ i = 1 ∨ i = 2 := by
        simp at hi
        omega
      rcases h3cases with rfl | rfl | rfl
      · exact isPre_cons_false _ _ (by decide)
      · exact isPre_cons_false _ _ (by decide)
      · exact isPre_cons_false _ _ (by decide)
    rw [replaceAll_append _ _ [':', '/', '/'] (urlparseL url).netloc hcond,
        replaceAll_of_not_contains _ _ (urlparseL url).netloc hnet]
  · intro hnet hscheme
    simp only [extractUrlComponents]
    rw [hnet]
    unfold tierNormalize
    rw [t1, List.append_nil]
    have hra := replaceAll_append ".blob.".toList ".dfs.".toList
      ((urlparseL url).scheme ++ [':', '/', '/']) []
      (markerFree_append_cond (urlparseL url).scheme [] hscheme)
    rw [List.append_nil] at hra
    rw [hra, show replaceAll ".blob.".toList ".dfs.".toList [] = [] from rfl,
        List.append_nil]
  · by_cases h200 : env.startCode = 200
    · rw [processBatchJob_202_200 env files qs ns wd h202 h200]
      exact List.mem_cons_of_mem _ (List.mem_cons_self _ _)
    · rw [processBatchJob_202_not200 env files qs ns wd h202 h200]
      exact List.mem_cons_of_mem _ (List.mem_cons_self _ _)
  · by_cases h200 : env.startCode = 200
    · rw [processBatchJob_202_200 env files qs ns wd h202 h200]
      exact List.mem_cons_of_mem _ (List.mem_cons_of_mem _
        (List.mem_append_left _ (uploadAttempt_mem env hf)))
    · rw [processBatchJob_202_not200 env files qs ns wd h202 h200]
      exact List.mem_cons_of_mem _ (List.mem_cons_of_mem _
        (List.mem_append_left _ (uploadAttempt_mem env hf)))

/-- Witness for the amended claim C5: a container-less URL parses to empty
container and directory, and a concrete run with a malformed input path
still binds the client and attempts the upload. -/
theorem claim_c5_witness :
    ((extractUrlComponents "https://host?sas".toList).file_system_name = []
      ∧ (extractUrlComponents "https://host?sas".toList).directory_name = [])
    ∧ Event.bindClient envC5.initBody.input_storage_path
        ∈ (processBatchJob envC5 ["a.wav"] [] 2 true).1
    ∧ Event.uploadAttempt "a.wav" ∈ (processBatchJob envC5 ["a.wav"] [] 2 true).1 := by
  have h := claim_c5 envC5 ["a.wav"] [] 2 true "a.wav" "https://host?sas".toList rfl (by decide)
  exact ⟨h.1 (by decide), h.2.2.2.1, h.2.2.2.2⟩
